import Mathlib

/-!
Verification of the ANPR (automatic number-plate recognition) core in
`backend/anpr.py` of the Automatic-Number-Plate-Detection repository.

Plate texts are modelled as `List Char` (OCR output is ASCII in this
pipeline; Python's `str.upper` is modelled per-character on the ASCII
range).  Confidences are modelled as exact rationals `ℚ`; the Python code
computes them in floating point, but every claim under study is about the
algorithmic structure (grouping, filtering, ordering, thresholds), which
the exact-arithmetic model reflects faithfully.  Python's anchored
`re.match(^...$)` is modelled as full-string matching; all call sites feed
it alphanumeric-only strings, where the two coincide.
-/

unseal Rat.add Rat.mul Rat.inv

/-- `A`–`Z`, i.e. the character class `[A-Z]` of the source regexes. -/
def isUpperC (c : Char) : Bool := 65 ≤ c.toNat && c.toNat ≤ 90

/-- `0`–`9`, i.e. the character class `[0-9]` of the source regexes. -/
def isDigitC (c : Char) : Bool := 48 ≤ c.toNat && c.toNat ≤ 57

/-- The character class `[A-Z0-9]` used both by pattern 1 and by the
cleaning step's `re.sub(r'[^A-Z0-9]', '', ...)`. -/
def isAlnumUC (c : Char) : Bool := isUpperC c || isDigitC c

/-- Python `str.upper()` on one ASCII character (`anpr.py` line 305,
`text.upper()`). -/
def toUpperChar (c : Char) : Char :=
  if 97 ≤ c.toNat ∧ c.toNat ≤ 122 then Char.ofNat (c.toNat - 32) else c

/-- Regex `^[A-Z0-9]{2,3}[A-Z0-9]{2,4}$` (`anpr.py` line 30): some split
into a 2–3 block and a 2–4 block of uppercase alphanumerics. -/
def matchesPattern1 (t : List Char) : Bool :=
  (List.range 2).any fun i =>
    (List.range 3).any fun j =>
      t.length = (2 + i) + (2 + j) &&
      (t.take (2 + i)).all isAlnumUC && (t.drop (2 + i)).all isAlnumUC

/-- Regex `^[A-Z]{1,3}[0-9]{3,4}$` (`anpr.py` line 31). -/
def matchesPattern2 (t : List Char) : Bool :=
  (List.range 3).any fun i =>
    (List.range 2).any fun j =>
      t.length = (1 + i) + (3 + j) &&
      (t.take (1 + i)).all isUpperC && (t.drop (1 + i)).all isDigitC

/-- Regex `^[0-9]{1,3}[A-Z]{2,3}[0-9]{1,4}$` (`anpr.py` line 32). -/
def matchesPattern3 (t : List Char) : Bool :=
  (List.range 3).any fun i =>
    (List.range 2).any fun j =>
      (List.range 4).any fun m =>
        t.length = (1 + i) + (2 + j) + (1 + m) &&
        (t.take (1 + i)).all isDigitC &&
        ((t.drop (1 + i)).take (2 + j)).all isUpperC &&
        ((t.drop (1 + i)).drop (2 + j)).all isDigitC

/-- `_validate_plate_text` (`anpr.py` lines 322–336): length gate 3–8,
then the three regex patterns, then the letter-and-digit fallback. -/
def validate_plate_text (t : List Char) : Bool :=
  if t.isEmpty || t.length < 3 || 8 < t.length then false
  else if matchesPattern1 t || matchesPattern2 t || matchesPattern3 t then true
  else t.any isUpperC && t.any isDigitC

/-- The `corrections` table of `_clean_plate_text` (`anpr.py` line 309), in
Python-dict insertion order. -/
def corrections : List (Char × Char) :=
  [('O', '0'), ('I', '1'), ('S', '5'), ('B', '8'), ('Z', '2'), ('G', '6')]

/-- Python `str.replace(old, new)`: replace every occurrence. -/
def substAll (t : List Char) (o n : Char) : List Char :=
  t.map fun c => if c = o then n else c

/-- The correction loop of `_clean_plate_text` (`anpr.py` lines 313–318):
walk the table in order; on the first entry whose character occurs and
whose full-string substitution validates, commit it and stop (`break`);
otherwise leave the cleaned text unchanged. -/
def correctLoop : List (Char × Char) → List Char → List Char
  | [], cleaned => cleaned
  | (o, n) :: rest, cleaned =>
    if o ∈ cleaned then
      if validate_plate_text (substAll cleaned o n) then substAll cleaned o n
      else correctLoop rest cleaned
    else correctLoop rest cleaned

/-- `_clean_plate_text` (`anpr.py` lines 299–320): uppercase, strip
non-alphanumerics, then the confusable-correction loop. -/
def clean_plate_text (text : List Char) : List Char :=
  if text = [] then []
  else correctLoop corrections ((text.map toUpperChar).filter isAlnumUC)

/-! ### Basic lemmas about cleaning and validation -/

lemma toUpperChar_eq_self {c : Char} (h : isAlnumUC c = true) : toUpperChar c = c := by
  unfold toUpperChar
  rw [if_neg]
  simp only [isAlnumUC, isUpperC, isDigitC, Bool.or_eq_true, Bool.and_eq_true,
    decide_eq_true_eq] at h
  omega

lemma map_toUpper_filter_id {t : List Char} (h : t.all isAlnumUC = true) :
    (t.map toUpperChar).filter isAlnumUC = t := by
  induction t with
  | nil => rfl
  | cons c cs ih =>
    simp only [List.all_cons, Bool.and_eq_true] at h
    simp [toUpperChar_eq_self h.1, h.1, ih h.2]

lemma correctLoop_eq_find (tbl : List (Char × Char)) (cleaned : List Char) :
    correctLoop tbl cleaned =
      (tbl.find? fun p => decide (p.1 ∈ cleaned) &&
        validate_plate_text (substAll cleaned p.1 p.2)).elim cleaned
        (fun p => substAll cleaned p.1 p.2) := by
  induction tbl with
  | nil => rfl
  | cons p rest ih =>
    obtain ⟨o, n⟩ := p
    by_cases hm : o ∈ cleaned
    · by_cases hv : validate_plate_text (substAll cleaned o n) = true
      · simp [correctLoop, List.find?, hm, hv]
      · rw [Bool.not_eq_true] at hv
        simp [correctLoop, List.find?, hm, hv, ih]
    · simp [correctLoop, List.find?, hm, ih]

lemma validate_ne_nil {t : List Char} (h : validate_plate_text t = true) : t ≠ [] := by
  intro he
  subst he
  simp [validate_plate_text] at h

/-- C2 (counterexample): `"AO123"` is already clean (uppercase alphanumeric
only) and already passes the format validator, yet `_clean_plate_text`
changes it (the `O→0` substitution yields `"A0123"`, which also validates,
so it is committed).  The claim that cleaning is the identity on clean
valid strings is therefore false. -/
theorem clean_plate_text_not_identity_cex :
    ("AO123".toList.all isAlnumUC = true) ∧
    validate_plate_text "AO123".toList = true ∧
    clean_plate_text "AO123".toList ≠ "AO123".toList := by
  refine ⟨by decide, by decide, by decide⟩

/-- C2 (amended): `_clean_plate_text` is the identity — and hence
idempotent — on strings that are already clean (uppercase alphanumeric
only), pass the format validator, and contain none of the confusable
characters `O,I,S,B,Z,G` of the correction table. -/
theorem clean_plate_text_id_of_no_confusables (t : List Char)
    (hclean : t.all isAlnumUC = true)
    (hvalid : validate_plate_text t = true)
    (hno : ∀ p ∈ corrections, p.1 ∉ t) :
    clean_plate_text t = t ∧ clean_plate_text (clean_plate_text t) = clean_plate_text t := by
  have hid : clean_plate_text t = t := by
    unfold clean_plate_text
    rw [if_neg (validate_ne_nil hvalid), map_toUpper_filter_id hclean,
      correctLoop_eq_find]
    have hfind : (corrections.find? fun p => decide (p.1 ∈ t) &&
        validate_plate_text (substAll t p.1 p.2)) = none := by
      rw [List.find?_eq_none]
      intro p hp
      simp [hno p hp]
    rw [hfind]
    rfl
  exact ⟨hid, by rw [hid, hid]⟩

theorem clean_plate_text_id_witness :
    ("XY123".toList.all isAlnumUC = true) ∧
    validate_plate_text "XY123".toList = true ∧
    clean_plate_text "XY123".toList = "XY123".toList :=
  ⟨by decide, by decide,
    (clean_plate_text_id_of_no_confusables "XY123".toList (by decide) (by decide)
      (by decide)).1⟩

lemma length_ge_four_of_patterns {t : List Char}
    (h : (matchesPattern1 t || matchesPattern2 t || matchesPattern3 t) = true) :
    4 ≤ t.length := by
  simp only [matchesPattern1, matchesPattern2, matchesPattern3, Bool.or_eq_true,
    List.any_eq_true, List.mem_range, Bool.and_eq_true, decide_eq_true_eq] at h
  rcases h with (⟨i, hi, j, hj, hlen, _⟩ | ⟨i, hi, j, hj, hlen, _⟩) |
    ⟨i, hi, j, hj, m, hm, hlen, _⟩ <;> omega

/-- C3 (counterexample): `"123ABC1234"` matches the third plate grammar
(3 digits, 3 letters, 4 digits) but has length 10, so
`_validate_plate_text` rejects it at the length gate.  The claim that every
grammar-matching string validates is therefore false. -/
theorem validate_plate_text_pattern3_cex :
    matchesPattern3 "123ABC1234".toList = true ∧
    validate_plate_text "123ABC1234".toList = false := by
  refine ⟨by decide, by decide⟩

/-- C3 (amended): every string of length at most 8 that matches one of the
three plate grammars is accepted by `_validate_plate_text`.  (Grammar
matches always have length at least 4, so the lower length gate never
fires; only pattern 3 can exceed length 8.) -/
theorem validate_plate_text_of_patterns (t : List Char)
    (h : (matchesPattern1 t || matchesPattern2 t || matchesPattern3 t) = true)
    (hlen : t.length ≤ 8) : validate_plate_text t = true := by
  have h4 := length_ge_four_of_patterns h
  have hne : t ≠ [] := by
    intro he
    rw [he] at h4
    simp at h4
  unfold validate_plate_text
  rw [if_neg, if_pos h]
  simp only [Bool.or_eq_true, decide_eq_true_eq, List.isEmpty_iff]
  push_neg
  exact ⟨⟨hne, by omega⟩, by omega⟩

theorem validate_plate_text_of_patterns_witness :
    ((matchesPattern1 "XY123".toList || matchesPattern2 "XY123".toList ||
      matchesPattern3 "XY123".toList) = true) ∧
    "XY123".toList.length ≤ 8 ∧
    validate_plate_text "XY123".toList = true :=
  ⟨by decide, by decide,
    validate_plate_text_of_patterns "XY123".toList (by decide) (by decide)⟩

/-- C4: the confusable-correction loop of `_clean_plate_text` commits the
first table entry (in table order `O→0, I→1, S→5, B→8, Z→2, G→6`) whose
character occurs in the cleaned text and whose full-string substitution
passes the format validator, and tries no further entries; if no entry
qualifies, the text is unchanged.  Hence at most one substitution is ever
applied, and a text that passes the validator is never turned into one
that fails it. -/
theorem correction_first_entry_wins (cleaned : List Char) :
    (correctLoop corrections cleaned =
      (corrections.find? fun p => decide (p.1 ∈ cleaned) &&
        validate_plate_text (substAll cleaned p.1 p.2)).elim cleaned
        (fun p => substAll cleaned p.1 p.2)) ∧
    (validate_plate_text cleaned = true →
      validate_plate_text (correctLoop corrections cleaned) = true) := by
  refine ⟨correctLoop_eq_find _ _, fun hv => ?_⟩
  rw [correctLoop_eq_find]
  cases hfind : corrections.find? fun p => decide (p.1 ∈ cleaned) &&
      validate_plate_text (substAll cleaned p.1 p.2) with
  | none => simpa using hv
  | some p =>
    have hp := List.find?_some hfind
    simp only [Bool.and_eq_true, decide_eq_true_eq] at hp
    simpa using hp.2

theorem correction_first_entry_wins_witness :
    validate_plate_text "AO123".toList = true ∧
    validate_plate_text (correctLoop corrections "AO123".toList) = true :=
  ⟨by decide, (correction_first_entry_wins "AO123".toList).2 (by decide)⟩

/-! ### Text recognition and per-frame processing

The image-dependent collaborators (cascade/contour detection, plate-region
extraction, EasyOCR) are opaque pixel operations; they are abstracted as
input data.  A `Reading` is one raw `(text, confidence)` pair returned by
the OCR reader; a `PlateCand` is one candidate region surviving
`_filter_duplicate_plates`, carrying whether `_extract_plate_region`
returned an image (`extracted`) and the OCR readings on that image. -/

structure Reading where
  text : List Char
  conf : ℚ
deriving DecidableEq, Repr

/-- The loop body of `_recognize_text` (`anpr.py` lines 284–292): every
reading's text is cleaned, then kept only when the cleaned text is
non-empty and the reading's confidence exceeds `0.3`. -/
def recognize_text (rs : List Reading) : List Reading :=
  rs.filterMap fun r =>
    let cleaned := clean_plate_text r.text
    if cleaned ≠ [] ∧ (3 : ℚ)/10 < r.conf then some ⟨cleaned, r.conf⟩ else none

/-- The texts on which `_recognize_text` invokes `_clean_plate_text`
(`anpr.py` line 286): the line runs for **every** element of the OCR
result list, before the confidence test on line 287. -/
def textsPassedToNormalizer (rs : List Reading) : List (List Char) :=
  rs.map fun r => r.text

structure Detection where
  plate_text : List Char
  confidence : ℚ
  frame : Nat
  timestamp : ℚ
  bounding_box : ℤ × ℤ × ℤ × ℤ
  detection_confidence : ℚ
deriving DecidableEq, Repr, Inhabited

structure PlateCand where
  x : ℤ
  y : ℤ
  w : ℤ
  h : ℤ
  conf : ℚ
  extracted : Bool
  readings : List Reading
deriving DecidableEq, Repr

/-- `_process_frame` (`anpr.py` lines 129–161): for each candidate region
with a non-`None` extracted image, recognize text and emit one `Detection`
per reading that passes `_validate_plate_text`. -/
def process_frame (frame_nmr : Nat) (timestamp : ℚ) (cands : List PlateCand) :
    List Detection :=
  cands.flatMap fun p =>
    if p.extracted then
      (recognize_text p.readings).filterMap fun td =>
        if validate_plate_text td.text then
          some { plate_text := td.text, confidence := td.conf, frame := frame_nmr,
                 timestamp := timestamp, bounding_box := (p.x, p.y, p.w, p.h),
                 detection_confidence := p.conf }
        else none
    else []

lemma substAll_all {t : List Char} {p : Char → Bool} {o n : Char}
    (ht : t.all p = true) (hn : p n = true) : (substAll t o n).all p = true := by
  simp only [substAll, List.all_map, List.all_eq_true] at *
  intro c hc
  by_cases hco : c = o <;> simp [hco, hn, ht c hc]

lemma clean_plate_text_all_alnum (t : List Char) :
    (clean_plate_text t).all isAlnumUC = true := by
  unfold clean_plate_text
  by_cases ht : t = []
  · simp [ht]
  · rw [if_neg ht, correctLoop_eq_find]
    have hbase : ((t.map toUpperChar).filter isAlnumUC).all isAlnumUC = true := by
      rw [List.all_eq_true]
      intro c hc
      exact (List.mem_filter.mp hc).2
    cases hfind : corrections.find? fun p =>
        decide (p.1 ∈ (t.map toUpperChar).filter isAlnumUC) &&
        validate_plate_text (substAll ((t.map toUpperChar).filter isAlnumUC) p.1 p.2) with
    | none => exact hbase
    | some p =>
      have hp : p ∈ corrections := List.mem_of_find?_eq_some hfind
      have hn : isAlnumUC p.2 = true := by
        fin_cases hp <;> decide
      simpa using substAll_all hbase hn

lemma validate_length {t : List Char} (h : validate_plate_text t = true) :
    t ≠ [] ∧ 3 ≤ t.length ∧ t.length ≤ 8 := by
  unfold validate_plate_text at h
  by_cases hg : (t.isEmpty || decide (t.length < 3) || decide (8 < t.length)) = true
  · rw [if_pos hg] at h
    exact absurd h (by simp)
  · simp only [Bool.or_eq_true, decide_eq_true_eq, List.isEmpty_iff] at hg
    push_neg at hg
    exact ⟨hg.1.1, by omega, by omega⟩

lemma mem_recognize_text {rs : List Reading} {td : Reading}
    (h : td ∈ recognize_text rs) :
    ∃ r ∈ rs, td.text = clean_plate_text r.text ∧ td.conf = r.conf ∧
      (3 : ℚ)/10 < r.conf := by
  simp only [recognize_text, List.mem_filterMap] at h
  obtain ⟨r, hr, heq⟩ := h
  by_cases hc : clean_plate_text r.text ≠ [] ∧ (3 : ℚ)/10 < r.conf
  · rw [if_pos hc] at heq
    obtain rfl := Option.some.inj heq
    exact ⟨r, hr, rfl, rfl, hc.2⟩
  · rw [if_neg hc] at heq
    exact absurd heq (by simp)

/-- C6: every `Detection` emitted by `_process_frame` has a plate text
that is non-empty, of length 3–8, uppercase alphanumeric only, and
accepted by `_validate_plate_text`. -/
theorem process_frame_text_invariant (frame_nmr : Nat) (timestamp : ℚ)
    (cands : List PlateCand) :
    ∀ d ∈ process_frame frame_nmr timestamp cands,
      d.plate_text ≠ [] ∧ 3 ≤ d.plate_text.length ∧ d.plate_text.length ≤ 8 ∧
      d.plate_text.all isAlnumUC = true ∧
      validate_plate_text d.plate_text = true := by
  intro d hd
  simp only [process_frame, List.mem_flatMap] at hd
  obtain ⟨p, hp, hd⟩ := hd
  by_cases hext : p.extracted = true
  · rw [if_pos hext] at hd
    simp only [List.mem_filterMap] at hd
    obtain ⟨td, htd, hsome⟩ := hd
    by_cases hv : validate_plate_text td.text = true
    · rw [if_pos hv] at hsome
      obtain rfl := Option.some.inj hsome
      obtain ⟨r, _, htext, _, _⟩ := mem_recognize_text htd
      have hlen := validate_length hv
      refine ⟨hlen.1, hlen.2.1, hlen.2.2, ?_, hv⟩
      simp only [htext]
      exact clean_plate_text_all_alnum r.text
    · rw [if_neg hv] at hsome
      exact absurd hsome (by simp)
  · rw [if_neg hext] at hd
    exact absurd hd (by simp)

theorem process_frame_text_invariant_witness :
    ((⟨"XY123".toList, 1/2, 0, 0, (0, 0, 0, 0), 7/10⟩ : Detection) ∈
      process_frame 0 0 [⟨0, 0, 0, 0, 7/10, true, [⟨"XY123".toList, 1/2⟩]⟩]) ∧
    ("XY123".toList ≠ [] ∧ 3 ≤ "XY123".toList.length ∧ "XY123".toList.length ≤ 8 ∧
      "XY123".toList.all isAlnumUC = true ∧
      validate_plate_text "XY123".toList = true) :=
  ⟨by decide,
    process_frame_text_invariant 0 0
      [⟨0, 0, 0, 0, 7/10, true, [⟨"XY123".toList, 1/2⟩]⟩]
      ⟨"XY123".toList, 1/2, 0, 0, (0, 0, 0, 0), 7/10⟩ (by decide)⟩

/-- C8 (counterexample): the reading `("O123A", 0.2)` is below the `0.3`
confidence floor, yet its text is still passed to `_clean_plate_text`
(`anpr.py` line 286 runs before the confidence test on line 287), so the
reading does reach the TextNormalizer; it merely yields no output entry. -/
theorem recognize_text_cleans_below_floor_cex :
    ((1 : ℚ)/5 < 3/10) ∧
    "O123A".toList ∈ textsPassedToNormalizer [⟨"O123A".toList, 1/5⟩] ∧
    recognize_text [⟨"O123A".toList, 1/5⟩] = [] := by
  refine ⟨by norm_num, by decide, by decide⟩

/-- C8 (amended): readings at or below the `0.3` confidence floor
contribute no output of `_recognize_text` (removing them beforehand
changes nothing, and every emitted entry has confidence above `0.3`) —
but their texts are still passed through `_clean_plate_text` before the
confidence filter discards them. -/
theorem recognize_text_floor_filter (rs : List Reading) :
    recognize_text rs = recognize_text (rs.filter fun r => (3 : ℚ)/10 < r.conf) ∧
    (∀ td ∈ recognize_text rs, (3 : ℚ)/10 < td.conf) ∧
    textsPassedToNormalizer rs = rs.map (fun r => r.text) := by
  refine ⟨?_, ?_, rfl⟩
  · induction rs with
    | nil => rfl
    | cons r rest ih =>
      by_cases h1 : (3 : ℚ)/10 < r.conf
      · by_cases h2 : clean_plate_text r.text = []
        · simp [recognize_text, List.filter_cons, List.filterMap_cons, h1, h2] at ih ⊢
          exact ih
        · simp [recognize_text, List.filter_cons, List.filterMap_cons, h1, h2] at ih ⊢
          exact ih
      · simp [recognize_text, List.filter_cons, List.filterMap_cons, h1] at ih ⊢
        exact ih
  · intro td htd
    obtain ⟨r, _, _, hconf, hfloor⟩ := mem_recognize_text htd
    rw [hconf]
    exact hfloor

theorem recognize_text_floor_filter_witness :
    ((⟨"XY123".toList, 1/2⟩ : Reading) ∈
      recognize_text [⟨"XY123".toList, 1/2⟩]) ∧
    (3 : ℚ)/10 < (1 : ℚ)/2 :=
  ⟨by decide,
    (recognize_text_floor_filter [⟨"XY123".toList, 1/2⟩]).2.1
      ⟨"XY123".toList, 1/2⟩ (by decide)⟩

/-! ### Result aggregation (`_post_process_results`) -/

/-- The distinct plate texts of `results`, in first-seen order — the key
order of the Python dict `plate_groups` (`anpr.py` lines 344–349). -/
def groupKeys (results : List Detection) : List (List Char) :=
  results.foldl (fun ks r => if r.plate_text ∈ ks then ks else ks ++ [r.plate_text]) []

/-- The group of a plate text: the detections carrying exactly that text,
in encounter order (`plate_groups[plate_text]`). -/
def groupOf (results : List Detection) (t : List Char) : List Detection :=
  results.filter fun r => r.plate_text = t

/-- Python `max(detections, key=lambda x: x['confidence'])` (`anpr.py`
line 355): first maximal element wins on ties. -/
def maxByConf : List Detection → Detection
  | [] => default
  | d :: rest => rest.foldl (fun b x => if b.confidence < x.confidence then x else b) d

/-- One aggregated record (`anpr.py` lines 355–361): the best detection of
a group annotated with `occurrence_count` and `avg_confidence`. -/
structure AggregatedPlate where
  det : Detection
  occurrence_count : Nat
  avg_confidence : ℚ
deriving DecidableEq, Repr

def sumConf (ds : List Detection) : ℚ := (ds.map fun d => d.confidence).sum

def aggRecord (results : List Detection) (t : List Char) : AggregatedPlate :=
  let ds := groupOf results t
  { det := maxByConf ds, occurrence_count := ds.length,
    avg_confidence := sumConf ds / (ds.length : ℚ) }

/-- The unsorted `final_results` list (`anpr.py` lines 352–361): one record
per distinct plate text, in first-seen key order. -/
def preAgg (results : List Detection) : List AggregatedPlate :=
  (groupKeys results).map (aggRecord results)

instance sortKeyDecRel {α : Type} (k : α → ℚ) :
    DecidableRel (fun p q : α => k q ≤ k p) :=
  fun p q => inferInstanceAs (Decidable (k q ≤ k p))

instance sortKeyTotal {α : Type} (k : α → ℚ) :
    IsTotal α (fun p q => k q ≤ k p) :=
  ⟨fun a b => le_total (k b) (k a)⟩

instance sortKeyTrans {α : Type} (k : α → ℚ) :
    IsTrans α (fun p q => k q ≤ k p) :=
  ⟨fun _ _ _ h1 h2 => le_trans h2 h1⟩

/-- Python's stable `list.sort(key=..., reverse=True)`, modelled by the
stable insertion sort, descending on the key. -/
def sortByKeyDesc {α : Type} (k : α → ℚ) (l : List α) : List α :=
  List.insertionSort (fun p q => k q ≤ k p) l

/-- `_post_process_results` (`anpr.py` lines 338–366). -/
def post_process_results (results : List Detection) : List AggregatedPlate :=
  if results = [] then []
  else sortByKeyDesc (fun p => p.avg_confidence) (preAgg results)

/-! ### Lemmas for the aggregation theorem -/

lemma groupKeys_sub {results : List Detection} {t : List Char}
    (h : t ∈ groupKeys results) : ∃ r ∈ results, r.plate_text = t := by
  suffices H : ∀ (l : List Detection) (acc : List (List Char)),
      t ∈ l.foldl (fun ks r => if r.plate_text ∈ ks then ks else ks ++ [r.plate_text]) acc →
      t ∈ acc ∨ ∃ r ∈ l, r.plate_text = t by
    rcases H results [] h with h' | h'
    · exact absurd h' (List.not_mem_nil t)
    · exact h'
  intro l
  induction l with
  | nil => intro acc h'; exact Or.inl h'
  | cons r rest ih =>
    intro acc h'
    rw [List.foldl_cons] at h'
    rcases ih _ h' with h'' | ⟨x, hx, he⟩
    · by_cases hm : r.plate_text ∈ acc
      · rw [if_pos hm] at h''
        exact Or.inl h''
      · rw [if_neg hm] at h''
        rcases List.mem_append.mp h'' with ha | ha
        · exact Or.inl ha
        · exact Or.inr ⟨r, List.mem_cons_self r rest, (List.mem_singleton.mp ha).symm⟩
    · exact Or.inr ⟨x, List.mem_cons_of_mem r hx, he⟩

lemma mem_groupOf {results : List Detection} {t : List Char} {x : Detection} :
    x ∈ groupOf results t ↔ x ∈ results ∧ x.plate_text = t := by
  simp [groupOf, List.mem_filter]

lemma foldl_max_spec (d : Detection) (l : List Detection) :
    (l.foldl (fun b x => if b.confidence < x.confidence then x else b) d = d ∨
      l.foldl (fun b x => if b.confidence < x.confidence then x else b) d ∈ l) ∧
    d.confidence ≤
      (l.foldl (fun b x => if b.confidence < x.confidence then x else b) d).confidence ∧
    ∀ x ∈ l, x.confidence ≤
      (l.foldl (fun b x => if b.confidence < x.confidence then x else b) d).confidence := by
  induction l generalizing d with
  | nil => exact ⟨Or.inl rfl, le_refl _, by simp⟩
  | cons a as ih =>
    rw [List.foldl_cons]
    by_cases hc : d.confidence < a.confidence
    · rw [if_pos hc]
      obtain ⟨hmem, hle, hall⟩ := ih a
      refine ⟨?_, le_trans (le_of_lt hc) hle, ?_⟩
      · rcases hmem with h | h
        · exact Or.inr (by rw [h]; exact List.mem_cons_self a as)
        · exact Or.inr (List.mem_cons_of_mem a h)
      · intro x hx
        rcases List.mem_cons.mp hx with rfl | hx'
        · exact hle
        · exact hall x hx'
    · rw [if_neg hc]
      obtain ⟨hmem, hle, hall⟩ := ih d
      refine ⟨?_, hle, ?_⟩
      · rcases hmem with h | h
        · exact Or.inl h
        · exact Or.inr (List.mem_cons_of_mem a h)
      · intro x hx
        rcases List.mem_cons.mp hx with rfl | hx'
        · exact le_trans (le_of_not_lt hc) hle
        · exact hall x hx'

lemma maxByConf_spec {ds : List Detection} (h : ds ≠ []) :
    maxByConf ds ∈ ds ∧ ∀ x ∈ ds, x.confidence ≤ (maxByConf ds).confidence := by
  match ds, h with
  | d :: rest, _ =>
    obtain ⟨hmem, hle, hall⟩ := foldl_max_spec d rest
    refine ⟨?_, ?_⟩
    · rcases hmem with h' | h'
      · rw [maxByConf, h']
        exact List.mem_cons_self d rest
      · exact List.mem_cons_of_mem d h'
    · intro x hx
      rcases List.mem_cons.mp hx with rfl | hx'
      · exact hle
      · exact hall x hx'

lemma orderedInsert_filter_key_self {α : Type} (k : α → ℚ) (a : α) (l : List α) :
    (List.orderedInsert (fun p q => k q ≤ k p) a l).filter (fun x => k x = k a) =
      a :: l.filter (fun x => k x = k a) := by
  induction l with
  | nil => simp [List.orderedInsert]
  | cons b bs ih =>
    by_cases hr : k b ≤ k a
    · simp [List.orderedInsert, hr, List.filter_cons]
    · have hne : ¬ (k b = k a) := fun he => hr (le_of_eq he)
      simp only [List.orderedInsert, if_neg hr, List.filter_cons, ih]
      simp [hne]

lemma orderedInsert_filter_key_ne {α : Type} (k : α → ℚ) (a : α) (l : List α)
    (c : ℚ) (h : ¬ (k a = c)) :
    (List.orderedInsert (fun p q => k q ≤ k p) a l).filter (fun x => k x = c) =
      l.filter (fun x => k x = c) := by
  induction l with
  | nil => simp [List.orderedInsert, h]
  | cons b bs ih =>
    by_cases hr : k b ≤ k a
    · simp [List.orderedInsert, hr, List.filter_cons, h]
    · simp only [List.orderedInsert, if_neg hr, List.filter_cons, ih]

lemma sortByKeyDesc_filter_key {α : Type} (k : α → ℚ) (l : List α) (c : ℚ) :
    (sortByKeyDesc k l).filter (fun x => k x = c) = l.filter (fun x => k x = c) := by
  induction l with
  | nil => rfl
  | cons a as ih =>
    show (List.orderedInsert _ a (List.insertionSort _ as)).filter _ = _
    by_cases h : k a = c
    · subst h
      rw [orderedInsert_filter_key_self k a (List.insertionSort _ as)]
      rw [List.filter_cons_of_pos (by simp)]
      exact congrArg _ ih
    · rw [orderedInsert_filter_key_ne k a (List.insertionSort _ as) c h]
      rw [List.filter_cons_of_neg (by simp [h])]
      exact ih

lemma sortByKeyDesc_perm {α : Type} (k : α → ℚ) (l : List α) :
    List.Perm (sortByKeyDesc k l) l :=
  List.perm_insertionSort _ l

lemma sortByKeyDesc_sorted {α : Type} (k : α → ℚ) (l : List α) :
    List.Sorted (fun p q => k q ≤ k p) (sortByKeyDesc k l) :=
  List.sorted_insertionSort _ l

lemma groupOf_ne_nil {results : List Detection} {t : List Char}
    (ht : t ∈ groupKeys results) : groupOf results t ≠ [] := by
  obtain ⟨r, hr, he⟩ := groupKeys_sub ht
  intro h0
  have hmem : r ∈ groupOf results t := mem_groupOf.mpr ⟨hr, he⟩
  rw [h0] at hmem
  exact absurd hmem (List.not_mem_nil r)

lemma aggRecord_text {results : List Detection} {t : List Char}
    (ht : t ∈ groupKeys results) : (aggRecord results t).det.plate_text = t := by
  have hmem := (maxByConf_spec (groupOf_ne_nil ht)).1
  exact (mem_groupOf.mp hmem).2

lemma preAgg_map_text (results : List Detection) :
    (preAgg results).map (fun p => p.det.plate_text) = groupKeys results := by
  unfold preAgg
  rw [List.map_map]
  have h : ∀ t ∈ groupKeys results,
      ((fun p => p.det.plate_text) ∘ aggRecord results) t = t :=
    fun t ht => aggRecord_text ht
  rw [List.map_congr_left h]
  simp

/-- C1: on a non-empty detection list, `_post_process_results` produces
exactly one record per distinct plate text (grouping by exact equality,
keys in first-seen order); each record's `occurrence_count` is the group
size, its `avg_confidence` is the arithmetic mean of the group's
recognition confidences, and its representative detection belongs to the
group and carries the group's maximal recognition confidence; the output
is the first-seen-ordered record list stably sorted descending by
`avg_confidence` (records with equal `avg_confidence` keep their
first-seen relative order). -/
theorem post_process_results_spec (results : List Detection) (hne : results ≠ []) :
    List.Perm (post_process_results results) (preAgg results) ∧
    (preAgg results).map (fun p => p.det.plate_text) = groupKeys results ∧
    (∀ p ∈ post_process_results results,
      p.det ∈ groupOf results p.det.plate_text ∧
      p.occurrence_count = (groupOf results p.det.plate_text).length ∧
      p.avg_confidence =
        sumConf (groupOf results p.det.plate_text) /
          ((groupOf results p.det.plate_text).length : ℚ) ∧
      ∀ d ∈ groupOf results p.det.plate_text, d.confidence ≤ p.det.confidence) ∧
    List.Sorted (fun p q => q.avg_confidence ≤ p.avg_confidence)
      (post_process_results results) ∧
    ∀ c : ℚ, (post_process_results results).filter (fun p => p.avg_confidence = c) =
      (preAgg results).filter (fun p => p.avg_confidence = c) := by
  have hpp : post_process_results results =
      sortByKeyDesc (fun p => p.avg_confidence) (preAgg results) := by
    rw [post_process_results, if_neg hne]
  refine ⟨?_, preAgg_map_text results, ?_, ?_, ?_⟩
  · rw [hpp]
    exact sortByKeyDesc_perm _ _
  · intro p hp
    rw [hpp] at hp
    have hp' : p ∈ preAgg results := (sortByKeyDesc_perm _ _).mem_iff.mp hp
    obtain ⟨t, ht, rfl⟩ := List.mem_map.mp hp'
    have hG := groupOf_ne_nil ht
    have htext := aggRecord_text ht
    rw [htext]
    exact ⟨(maxByConf_spec hG).1, rfl, rfl, (maxByConf_spec hG).2⟩
  · rw [hpp]
    exact sortByKeyDesc_sorted _ _
  · intro c
    rw [hpp]
    exact sortByKeyDesc_filter_key _ _ c

/-- Three same-text detections with recognition confidences
`0.9, 0.7, 0.95` — the concrete instance named by the specification. -/
def sampleDetections : List Detection :=
  [⟨"XY123".toList, mkRat 9 10, 0, 0, (0, 0, 0, 0), mkRat 7 10⟩,
   ⟨"XY123".toList, mkRat 7 10, 1, 0, (0, 0, 0, 0), mkRat 7 10⟩,
   ⟨"XY123".toList, mkRat 19 20, 2, 0, (0, 0, 0, 0), mkRat 7 10⟩]

theorem post_process_results_spec_witness :
    sampleDetections ≠ [] ∧
    List.Perm (post_process_results sampleDetections) (preAgg sampleDetections) ∧
    (post_process_results sampleDetections).map
        (fun p => (p.occurrence_count, p.avg_confidence, p.det.confidence)) =
      [(3, mkRat 17 20, mkRat 19 20)] :=
  ⟨by decide, (post_process_results_spec sampleDetections (by decide)).1, by decide⟩

/-! ### Overlap resolution (`_filter_duplicate_plates`)

`_filter_duplicate_plates` (`anpr.py` lines 222–241) delegates the actual
suppression to the external library call
`cv2.dnn.NMSBoxes(boxes, confidences, 0.5, 0.4)`, whose code is not part
of this repository; the suppression itself is therefore modelled from the
specification (§4.3). -/

structure Region where
  x : ℤ
  y : ℤ
  w : ℤ
  h : ℤ
  conf : ℚ
deriving DecidableEq, Repr

/-- Modelled from the spec: intersection-over-union of two regions, on
the corner boxes `[x, y, x+w, y+h]` built on `anpr.py` line 228. -/
def iou (a b : Region) : ℚ :=
  let interW : ℤ := min (a.x + a.w) (b.x + b.w) - max a.x b.x
  let interH : ℤ := min (a.y + a.h) (b.y + b.h) - max a.y b.y
  let inter : ℤ := max 0 interW * max 0 interH
  let union : ℤ := a.w * a.h + b.w * b.h - inter
  (inter : ℚ) / (union : ℚ)

/-- Greedy suppression pass: walk the confidence-ordered candidates and
keep a region iff its IoU with every previously kept region is at most
the suppression threshold `0.4`. -/
def nmsKeep (cands : List Region) : List Region :=
  cands.foldl (fun kept r =>
    if kept.all fun q => iou q r ≤ mkRat 2 5 then kept ++ [r] else kept) []

/-- Modelled from the spec: `cv2.dnn.NMSBoxes(boxes, confidences, 0.5,
0.4)` (§4.3) — discard candidates with confidence below the `0.5` floor,
sort the rest by confidence descending with stable tie-break by insertion
order, then greedily suppress at IoU above `0.4`. -/
def nmsBoxes (rs : List Region) : List Region :=
  nmsKeep (sortByKeyDesc (fun r => r.conf) (rs.filter fun r => mkRat 1 2 ≤ r.conf))

/-- `_filter_duplicate_plates` (`anpr.py` lines 222–241): empty input
short-circuits to `[]`; otherwise the NMS result, with each kept region
re-assembled as `(x, y, x2-x, y2-y, conf)` (the identity on our model). -/
def filter_duplicate_plates (plates : List Region) : List Region :=
  if plates = [] then [] else nmsBoxes plates

lemma nmsKeep_aux (l : List Region) :
    ∀ acc : List Region,
      ∃ s, l.foldl (fun kept r =>
          if kept.all (fun q => iou q r ≤ mkRat 2 5) then kept ++ [r] else kept) acc =
        acc ++ s ∧ List.Sublist s l := by
  induction l with
  | nil => exact fun acc => ⟨[], (List.append_nil acc).symm, List.nil_sublist []⟩
  | cons r rest ih =>
    intro acc
    rw [List.foldl_cons]
    by_cases hc : (acc.all fun q => iou q r ≤ mkRat 2 5) = true
    · rw [if_pos hc]
      obtain ⟨s, hs, hsub⟩ := ih (acc ++ [r])
      exact ⟨r :: s, by rw [hs, List.append_assoc]; rfl, List.Sublist.cons₂ r hsub⟩
    · rw [if_neg hc]
      obtain ⟨s, hs, hsub⟩ := ih acc
      exact ⟨s, hs, List.Sublist.cons r hsub⟩

lemma nmsKeep_sublist (l : List Region) : List.Sublist (nmsKeep l) l := by
  obtain ⟨s, hs, hsub⟩ := nmsKeep_aux l []
  unfold nmsKeep
  rw [hs]
  simpa using hsub

/-- C5: `_filter_duplicate_plates` is deterministic — two runs on the same
input produce the same kept list — and ties between equal confidences are
broken by original insertion order: for every confidence value `c`, the
kept regions of confidence `c` form a subsequence of the input's regions
of confidence `c`, in their original relative order. -/
theorem filter_duplicate_plates_deterministic (plates : List Region) :
    filter_duplicate_plates plates = filter_duplicate_plates plates ∧
    ∀ c : ℚ, List.Sublist
      ((filter_duplicate_plates plates).filter fun r => r.conf = c)
      (plates.filter fun r => r.conf = c) := by
  refine ⟨rfl, fun c => ?_⟩
  by_cases hp : plates = []
  · subst hp
    simp [filter_duplicate_plates]
  · rw [filter_duplicate_plates, if_neg hp]
    unfold nmsBoxes
    have h1 := (nmsKeep_sublist
      (sortByKeyDesc (fun r => r.conf)
        (plates.filter fun r => mkRat 1 2 ≤ r.conf))).filter
      (fun r => decide (r.conf = c))
    rw [sortByKeyDesc_filter_key] at h1
    have h2 := (List.filter_sublist
      (p := fun r => decide (mkRat 1 2 ≤ r.conf)) plates).filter
      (fun r => decide (r.conf = c))
    exact h1.trans h2

/-! ### The video pipeline (`process_video`) -/

inductive ConfidenceSummary where
  | noPlates : ConfidenceSummary
  | stats (total_plates : Nat) (avg mx mn : ℚ) (high_confidence_count : Nat) :
      ConfidenceSummary
deriving DecidableEq, Repr

/-- Python `max` over a non-empty list (`anpr.py` line 378). -/
def maxListQ : List ℚ → ℚ
  | [] => 0
  | c :: cs => cs.foldl max c

/-- Python `min` over a non-empty list (`anpr.py` line 379). -/
def minListQ : List ℚ → ℚ
  | [] => 0
  | c :: cs => cs.foldl min c

/-- `_calculate_confidence_summary` (`anpr.py` lines 368–381): the
`{"message": "No plates detected"}` marker on empty input, otherwise the
numeric statistics record. -/
def calculate_confidence_summary (results : List AggregatedPlate) :
    ConfidenceSummary :=
  if results = [] then ConfidenceSummary.noPlates
  else
    let confidences := results.map fun r => r.avg_confidence
    ConfidenceSummary.stats results.length
      (confidences.sum / (confidences.length : ℚ))
      (maxListQ confidences) (minListQ confidences)
      (confidences.filter fun c => mkRat 8 10 < c).length

/-- One value of the result dictionary built on `anpr.py` lines 120–127. -/
inductive ResultValue where
  | plates (l : List AggregatedPlate)
  | nat (n : Nat)
  | rat (q : ℚ)
  | str (s : String)
  | summary (c : ConfidenceSummary)
deriving DecidableEq, Repr

/-- One iteration of the sampling loop: a successful `cap.read()` whose
(possible) processing yields the given per-frame candidates, a failed
read (`ret == False`, normal exhaustion), or an exception raised inside
the loop body (caught by the `except` on `anpr.py` line 105). -/
inductive FrameEvent where
  | frame (cands : List PlateCand)
  | readFail : FrameEvent
  | err : FrameEvent
deriving DecidableEq, Repr

/-- `timestamp = frame_nmr / fps if fps > 0 else frame_nmr` (line 93). -/
def tsOf (fps : ℚ) (n : Nat) : ℚ := if 0 < fps then (n : ℚ) / fps else (n : ℚ)

/-- The sampling loop of `process_video` (`anpr.py` lines 86–103): walk
the frame events; every 5th frame is processed and its detections
accumulated; a failed read or an exception ends the loop (the exception is
caught and logged, line 105), keeping whatever was accumulated. -/
def sampleLoop (fps : ℚ) :
    List FrameEvent → Nat → Nat → List Detection → List Detection × Nat
  | [], _, processed, acc => (acc, processed)
  | FrameEvent.readFail :: _, _, processed, acc => (acc, processed)
  | FrameEvent.err :: _, _, processed, acc => (acc, processed)
  | FrameEvent.frame cands :: rest, n, processed, acc =>
    if n % 5 = 0 then
      sampleLoop fps rest (n + 1) (processed + 1)
        (acc ++ process_frame n (tsOf fps n) cands)
    else sampleLoop fps rest (n + 1) processed acc

structure PipelineOutcome where
  result : List (String × ResultValue)
  videoFileRemoved : Bool
deriving DecidableEq, Repr

/-- `process_video` (`anpr.py` lines 56–127) after a successful open: run
the sampling loop, attempt `os.remove(video_path)` unconditionally
(lines 110–115 execute on normal exhaustion and on a caught mid-stream
error alike), post-process the accumulated detections, and return the
result dictionary of lines 120–127 in key order.  `now` stands for
`datetime.now().isoformat()`; duration is `total_frames / fps if fps > 0
else 0` (line 76). -/
def process_video (fps : ℚ) (total_frames : Nat) (now : String)
    (events : List FrameEvent) : PipelineOutcome :=
  { result :=
      [("plates_detected", ResultValue.plates
          (post_process_results (sampleLoop fps events 0 0 []).1)),
       ("total_frames", ResultValue.nat total_frames),
       ("processed_frames", ResultValue.nat (sampleLoop fps events 0 0 []).2),
       ("video_duration", ResultValue.rat
          (if 0 < fps then (total_frames : ℚ) / fps else 0)),
       ("processing_timestamp", ResultValue.str now),
       ("confidence_summary", ResultValue.summary
          (calculate_confidence_summary
            (post_process_results (sampleLoop fps events 0 0 []).1)))],
    videoFileRemoved := true }

lemma process_video_lookup_plates (fps : ℚ) (total_frames : Nat) (now : String)
    (events : List FrameEvent) :
    (process_video fps total_frames now events).result.lookup "plates_detected" =
      some (ResultValue.plates
        (post_process_results (sampleLoop fps events 0 0 []).1)) := rfl

lemma process_video_lookup_summary (fps : ℚ) (total_frames : Nat) (now : String)
    (events : List FrameEvent) :
    (process_video fps total_frames now events).result.lookup "confidence_summary" =
      some (ResultValue.summary (calculate_confidence_summary
        (post_process_results (sampleLoop fps events 0 0 []).1))) := rfl

/-- C7: a run whose sampling loop accumulates zero validated detections
returns the ordinary success record with `plates_detected = []` and
`confidence_summary` equal to the `"No plates detected"` message marker,
not a numeric summary. -/
theorem process_video_empty_result (fps : ℚ) (total_frames : Nat) (now : String)
    (events : List FrameEvent) (h : (sampleLoop fps events 0 0 []).1 = []) :
    (process_video fps total_frames now events).result.lookup "plates_detected" =
      some (ResultValue.plates []) ∧
    (process_video fps total_frames now events).result.lookup "confidence_summary" =
      some (ResultValue.summary ConfidenceSummary.noPlates) := by
  constructor
  · rw [process_video_lookup_plates, h]
    rfl
  · rw [process_video_lookup_summary, h]
    rfl

theorem process_video_empty_result_witness :
    ((sampleLoop 1 [] 0 0 []).1 = ([] : List Detection)) ∧
    (process_video 1 0 "" []).result.lookup "plates_detected" =
      some (ResultValue.plates []) ∧
    (process_video 1 0 "" []).result.lookup "confidence_summary" =
      some (ResultValue.summary ConfidenceSummary.noPlates) :=
  ⟨rfl, process_video_empty_result 1 0 "" [] rfl⟩

/-- C9 (counterexample): the result record returned by `process_video`
has no field `video_duration_seconds`; the duration field is named
`video_duration` (`anpr.py` line 124).  The claim that the record carries
a `video_duration_seconds` field is false on every run, in particular on
this one. -/
theorem process_video_keys_cex :
    "video_duration_seconds" ∉ (process_video 1 0 "" []).result.map Prod.fst ∧
    "video_duration" ∈ (process_video 1 0 "" []).result.map Prod.fst := by
  refine ⟨by decide, by decide⟩

/-- C9 (amended): for every run, the result record of `process_video`
consists of exactly the fields `plates_detected`, `total_frames`,
`processed_frames`, `video_duration`, `processing_timestamp` and
`confidence_summary`, in that order. -/
theorem process_video_result_keys (fps : ℚ) (total_frames : Nat) (now : String)
    (events : List FrameEvent) :
    (process_video fps total_frames now events).result.map Prod.fst =
      ["plates_detected", "total_frames", "processed_frames", "video_duration",
       "processing_timestamp", "confidence_summary"] := rfl

lemma sampleLoop_stops_at_err (fps : ℚ) (rest : List FrameEvent) :
    ∀ (pre : List FrameEvent) (n processed : Nat) (acc : List Detection),
      sampleLoop fps (pre ++ FrameEvent.err :: rest) n processed acc =
      sampleLoop fps (pre ++ [FrameEvent.err]) n processed acc := by
  intro pre
  induction pre with
  | nil => intro n p acc; rfl
  | cons e es ih =>
    intro n p acc
    cases e with
    | frame cands =>
      simp only [List.cons_append, sampleLoop]
      by_cases hn : n % 5 = 0
      · rw [if_pos hn, if_pos hn]
        exact ih (n + 1) (p + 1) (acc ++ process_frame n (tsOf fps n) cands)
      · rw [if_neg hn, if_neg hn]
        exact ih (n + 1) p acc
    | readFail => simp only [List.cons_append, sampleLoop]
    | err => simp only [List.cons_append, sampleLoop]

/-- C10: `process_video` attempts to delete the input video file after the
sampling loop in every run — on normal exhaustion and on a caught
mid-stream error alike; the returned `plates_detected` is always computed
from the detections accumulated up to loop termination; and everything
after a mid-stream error is ignored (the run behaves as if the stream
ended at the error). -/
theorem process_video_cleanup (fps : ℚ) (total_frames : Nat) (now : String) :
    (∀ events, (process_video fps total_frames now events).videoFileRemoved = true) ∧
    (∀ events,
      (process_video fps total_frames now events).result.lookup "plates_detected" =
        some (ResultValue.plates
          (post_process_results (sampleLoop fps events 0 0 []).1))) ∧
    (∀ pre rest,
      process_video fps total_frames now (pre ++ FrameEvent.err :: rest) =
      process_video fps total_frames now (pre ++ [FrameEvent.err])) := by
  refine ⟨fun events => rfl,
    fun events => process_video_lookup_plates fps total_frames now events,
    fun pre rest => ?_⟩
  unfold process_video
  rw [sampleLoop_stops_at_err fps rest pre 0 0 []]
